import Mathlib

/-!
Verification development for the micro-learning-system content service.

The program under study is the content-transformation core of the
repository: `content-service/src/services/transformation_service.py`
(class `TransformationService`) together with the monolithic
application `content-service/app.py` (functions
`clean_text_for_processing`, `transform_content_internal`, and the
`/upload` endpoint's input checks).  Text is modelled as `List Char`;
Python regular-expression substitutions are modelled by equivalent
structural scans; machine integers are `Nat` (none of the arithmetic
here can overflow in Python, whose integers are unbounded).

External-library functions (NLTK `word_tokenize`, `sent_tokenize`,
the NLTK stopword corpus) are not part of the repository.  They are
modelled as follows, per the specification's own note that an
equivalent tokenizer may be substituted:
* `word_tokenize` is modelled as splitting on whitespace
  (`wordTokenize`);
* `sent_tokenize` is modelled as splitting after `.`, `!` or `?`
  (`sentTokenize`);
* the stopword set is a parameter `stop : List (List Char)` of every
  definition that consumes it, so theorems quantify over it.
-/

/-- Characters matched by Python's `\s` (ASCII fragment): space, tab,
newline, carriage return, vertical tab, form feed. -/
def isSpaceChar (c : Char) : Bool :=
  c = ' ' || c = '\t' || c = '\n' || c = '\r' || c = '\x0b' || c = '\x0c'

/-- ASCII model of Python `str.isalpha` applied to one character. -/
def isAlphaChar (c : Char) : Bool :=
  ('a' ≤ c && c ≤ 'z') || ('A' ≤ c && c ≤ 'Z')

/-- ASCII model of Python `str.isalpha`: nonempty and all alphabetic. -/
def isAlphaStr (w : List Char) : Bool :=
  !w.isEmpty && w.all isAlphaChar

/-- ASCII model of Python `str.lower` applied to one character. -/
def pyToLower (c : Char) : Char :=
  if 'A' ≤ c ∧ c ≤ 'Z' then Char.ofNat (c.toNat + 32) else c

/-- Python `str.strip()` (ASCII whitespace model): drop leading and
trailing whitespace. -/
def strip (s : List Char) : List Char :=
  ((s.dropWhile isSpaceChar).reverse.dropWhile isSpaceChar).reverse

/-- Scan for `re.sub(r'\s+', ' ', s)`: the flag records whether the
previous character was whitespace, so each maximal whitespace run
emits exactly one space. -/
def collapseWSAux : Bool → List Char → List Char
  | _, [] => []
  | prevSpace, c :: cs =>
    if isSpaceChar c then
      if prevSpace then collapseWSAux true cs
      else ' ' :: collapseWSAux true cs
    else c :: collapseWSAux false cs

/-- Model of `re.sub(r'\s+', ' ', s)`: every maximal run of whitespace
characters is replaced by a single space. -/
def collapseWS (s : List Char) : List Char := collapseWSAux false s

/-- Emit a pending run of `k` newlines under `re.sub(r'\n{3,}', '\n\n', s)`
semantics: runs of length ≥ 3 become 2 newlines, shorter runs are kept. -/
def flushNL (k : Nat) : List Char := List.replicate (min k 2) '\n'

/-- Scan for `re.sub(r'\n{3,}', '\n\n', s)`, carrying the length of the
current pending newline run. -/
def collapseNL3Aux : Nat → List Char → List Char
  | k, [] => flushNL k
  | k, c :: cs =>
    if c = '\n' then collapseNL3Aux (k + 1) cs
    else flushNL k ++ c :: collapseNL3Aux 0 cs

/-- Model of `re.sub(r'\n{3,}', '\n\n', s)`. -/
def collapseNL3 (s : List Char) : List Char := collapseNL3Aux 0 s

/-- Model of `TransformationService._clean_content`: collapse all whitespace runs
to one space, then normalize newline runs, then strip.  (Faithful to the
source's order of the two substitutions.) -/
def clean_content (content : List Char) : List Char :=
  strip (collapseNL3 (collapseWS content))

/-- Python `s.split('\n\n')`: split on non-overlapping occurrences of two
consecutive newlines, leftmost first. -/
def splitOnNN : List Char → List (List Char)
  | [] => [[]]
  | [c] => [[c]]
  | c :: d :: rest =>
    if c = '\n' ∧ d = '\n' then [] :: splitOnNN rest
    else
      match splitOnNN (d :: rest) with
      | [] => [[c]]
      | p :: ps => (c :: p) :: ps

/-- Scan for whitespace splitting, carrying the current word reversed. -/
def splitWSAux : List Char → List Char → List (List Char)
  | [], cur => if cur.isEmpty then [] else [cur.reverse]
  | c :: cs, cur =>
    if isSpaceChar c then
      (if cur.isEmpty then [] else [cur.reverse]) ++ splitWSAux cs []
    else splitWSAux cs (c :: cur)

/-- Model of NLTK `word_tokenize` (and of Python `str.split()` with no
arguments): the maximal whitespace-free runs of the text, in order. -/
def wordTokenize (s : List Char) : List (List Char) := splitWSAux s []

/-- Sentence-terminating characters for the sentence tokenizer model. -/
def isSentEnd (c : Char) : Bool := c = '.' || c = '!' || c = '?'

/-- Scan for sentence splitting, carrying the current sentence reversed. -/
def sentTokenizeAux : List Char → List Char → List (List Char)
  | [], cur => if (strip cur.reverse).isEmpty then [] else [strip cur.reverse]
  | c :: cs, cur =>
    if isSentEnd c then strip (cur.reverse ++ [c]) :: sentTokenizeAux cs []
    else sentTokenizeAux cs (c :: cur)

/-- Model of NLTK `sent_tokenize`: split after `.`, `!` or `?`, stripping
surrounding whitespace; trailing unterminated text forms a final sentence. -/
def sentTokenize (s : List Char) : List (List Char) := sentTokenizeAux s []

/-- Python `round(w / k)` for natural `w` and positive `k`, evaluated on
the exact rational `w / k`: round half to even.  (Ties `w / k = m + 1/2`
with `k = 200` occur only at floating-point-representable values, and
away from ties the float quotient is far closer to the true value than
to the tie, so this agrees with the CPython computation in the source.) -/
def pyRoundDiv (w k : Nat) : Nat :=
  let q := w / k
  let r := w % k
  if 2 * r < k then q
  else if k < 2 * r then q + 1
  else if q % 2 = 0 then q else q + 1

/-! ## `TransformationService` (transformation_service.py) -/

/-- The accumulation step of `_split_into_paragraphs`:
`current_para += " " + para if current_para else para`. -/
def joinShort (cur para : List Char) : List Char :=
  if cur.isEmpty then para else cur ++ ' ' :: para

/-- The merge loop of `_split_into_paragraphs`: paragraphs with fewer
than 50 tokens accumulate into `cur`; a paragraph with at least 50
tokens first flushes a nonempty `cur` as its own group, then is emitted
itself; a nonempty `cur` left at the end is flushed as the final group. -/
def mergeShortAux : List (List Char) → List Char → List (List Char)
  | [], cur => if cur.isEmpty then [] else [cur]
  | para :: rest, cur =>
    if (wordTokenize para).length < 50 then
      mergeShortAux rest (joinShort cur para)
    else
      (if cur.isEmpty then [] else [cur]) ++ para :: mergeShortAux rest []

/-- Model of `TransformationService._split_into_paragraphs`: split on blank lines,
strip each piece, drop empty pieces, then run the short-paragraph merge
loop. -/
def split_into_paragraphs (content : List Char) : List (List Char) :=
  let raw := ((splitOnNN content).map strip).filter (fun p => !p.isEmpty)
  mergeShortAux raw []

/-- Keep the first occurrence of every word, in order (iteration order of
a Python `Counter`'s keys). -/
def firstDedupAux : List (List Char) → List (List Char) → List (List Char)
  | [], _ => []
  | w :: ws, seen =>
    if w ∈ seen then firstDedupAux ws seen
    else w :: firstDedupAux ws (w :: seen)

/-- First-occurrence deduplication of a word list. -/
def firstDedup (ws : List (List Char)) : List (List Char) :=
  firstDedupAux ws []

/-- Stable descending insertion (by `cnt`) of one word into a sorted
list: the new word goes before the first element of no larger count, so
equal counts keep their original relative order. -/
def insertDesc (cnt : List Char → Nat) (w : List Char) :
    List (List Char) → List (List Char)
  | [] => [w]
  | y :: ys => if cnt y ≤ cnt w then w :: y :: ys else y :: insertDesc cnt w ys

/-- Stable sort by descending `cnt` (model of the ordering of
`Counter.most_common`: descending frequency, ties in first-insertion
order). -/
def sortDesc (cnt : List Char → Nat) : List (List Char) → List (List Char)
  | [] => []
  | w :: ws => insertDesc cnt w (sortDesc cnt ws)

/-- The filtered token list of `extract_keywords`: tokenize the lowercased
text, keep alphabetic tokens longer than 3 characters, remove stopwords. -/
def keywordTokens (stop : List (List Char)) (content : List Char) :
    List (List Char) :=
  ((wordTokenize (content.map pyToLower)).filter
      (fun w => isAlphaStr w && decide (3 < w.length))).filter
    (fun w => decide (w ∉ stop))

/-- Model of `TransformationService.extract_keywords`: count frequencies of the
filtered tokens and return the `top_n` most common words (descending
frequency, ties by first occurrence). -/
def extract_keywords (stop : List (List Char)) (content : List Char)
    (top_n : Nat) : List (List Char) :=
  let words := keywordTokens stop content
  (sortDesc (fun w => words.count w) (firstDedup words)).take top_n

/-- Model of `TransformationService._generate_title`: first sentence with more
than 5 tokens, truncated at 80 characters to 77 plus an ellipsis;
fallback to the first sentence truncated at 80 characters to 80 plus an
ellipsis; generic placeholder if there are no sentences. -/
def generate_title (sentences : List (List Char)) : List Char :=
  match sentences.find? (fun s => decide (5 < (wordTokenize s).length)) with
  | some s => if 80 < s.length then s.take 77 ++ "...".toList else s
  | none =>
    match sentences with
    | [] => "Micro-Leçon".toList
    | s0 :: _ => if 80 < s0.length then s0.take 80 ++ "...".toList else s0

/-- The running accumulator of `split_into_micro_lessons`. -/
structure LessonAcc where
  paragraphs : List (List Char)
  word_count : Nat
  sentences : List (List Char)
deriving DecidableEq

/-- A micro-lesson dictionary as produced by `_create_lesson_from_data`. -/
structure Lesson where
  title : List Char
  content : List Char
  estimated_minutes : Nat
  word_count : Nat
  order : Nat
  keywords : List (List Char)
deriving DecidableEq

/-- Model of `TransformationService._create_lesson_from_data`. -/
def create_lesson_from_data (stop : List (List Char)) (acc : LessonAcc)
    (order : Nat) : Lesson :=
  let title := generate_title acc.sentences
  let estimated := max 1 (pyRoundDiv acc.word_count 200)
  let content := List.intercalate ('\n' :: '\n' :: []) acc.paragraphs
  { title := ("Leçon " ++ toString order ++ ": ").toList ++ title
    content := content
    estimated_minutes := estimated
    word_count := acc.word_count
    order := order
    keywords := extract_keywords stop content 5 }

/-- The paragraph-accumulation loop of `split_into_micro_lessons`:
before adding a paragraph, if the accumulated word count plus the
paragraph's would exceed the target and the accumulator is nonempty,
emit the accumulated lesson; then add the paragraph; a nonempty
accumulator left at the end is emitted as the final lesson.
`n` counts lessons emitted so far (`len(micro_lessons)`). -/
def buildLessons (stop : List (List Char)) (target : Nat) :
    List (List Char) → LessonAcc → Nat → List Lesson
  | [], acc, n =>
    if acc.paragraphs.isEmpty then []
    else [create_lesson_from_data stop acc (n + 1)]
  | para :: rest, acc, n =>
    let pw := (wordTokenize para).length
    if target < acc.word_count + pw ∧ ¬ acc.paragraphs.isEmpty then
      create_lesson_from_data stop acc (n + 1) ::
        buildLessons stop target rest
          { paragraphs := [para], word_count := pw,
            sentences := sentTokenize para } (n + 1)
    else
      buildLessons stop target rest
        { paragraphs := acc.paragraphs ++ [para],
          word_count := acc.word_count + pw,
          sentences := acc.sentences ++ sentTokenize para } n

/-- Model of `TransformationService.split_into_micro_lessons`: clean the content,
split into paragraph groups, and accumulate them into lessons under the
word target `duration_minutes * 200`. -/
def split_into_micro_lessons (stop : List (List Char))
    (content : List Char) (duration_minutes : Nat) : List Lesson :=
  buildLessons stop (duration_minutes * 200)
    (split_into_paragraphs (clean_content content))
    { paragraphs := [], word_count := 0, sentences := [] } 0

/-- A quiz-question dictionary as produced by
`_generate_question_from_sentence`. -/
structure QuizQuestion where
  text : List Char
  options : List (List Char)
  correct_answer : List Char
  points : Nat
  explanation : List Char
deriving DecidableEq

/-- The four fixed option strings of the quiz template, in source order. -/
def quizOptions : List (List Char) :=
  ["Un élément technique essentiel".toList,
   "Une notion secondaire".toList,
   "Un principe fondamental".toList,
   "Un détail sans importance".toList]

/-- Model of `TransformationService._generate_question_from_sentence`: pick the
sentence's alphabetic tokens longer than 4 characters that are not
stopwords (after lowercasing); with no such keyword return `none`,
otherwise a fixed-template question around the first one. -/
def generate_question_from_sentence (stop : List (List Char))
    (sentence : List Char) (number : Nat) : Option QuizQuestion :=
  match (wordTokenize sentence).filter
      (fun w => isAlphaStr w && decide (4 < w.length) &&
        decide (w.map pyToLower ∉ stop)) with
  | [] => none
  | main :: _ =>
    some
      { text := ("Question " ++ toString number ++
          ": Expliquez le concept de '").toList ++ main ++
          "' dans ce contexte".toList
        options := quizOptions
        correct_answer := "Un élément technique essentiel".toList
        points := 1
        explanation := ("Le concept '").toList ++ main ++
          ("' est central pour comprendre ce contenu.").toList }

/-- The sentence search of `generate_quiz_questions`: the first sentence
not yet used that has more than 6 tokens. -/
def pickSentence (used : List (List Char)) :
    List (List Char) → Option (List Char)
  | [] => none
  | s :: ss =>
    if s ∉ used ∧ 6 < (wordTokenize s).length then some s
    else pickSentence used ss

/-- The question loop of `generate_quiz_questions`: `fuel` iterations
remain, `i` is the 0-based loop index (question numbers are `i + 1`),
`used` the sentences already consumed; stops early when no sentence
qualifies; questions for which no keyword exists are skipped. -/
def quizLoop (stop : List (List Char)) (sentences : List (List Char)) :
    Nat → Nat → List (List Char) → List QuizQuestion
  | 0, _, _ => []
  | fuel + 1, i, used =>
    match pickSentence used sentences with
    | none => []
    | some s =>
      match generate_question_from_sentence stop s (i + 1) with
      | none => quizLoop stop sentences fuel (i + 1) (s :: used)
      | some q => q :: quizLoop stop sentences fuel (i + 1) (s :: used)

/-- Model of `TransformationService.generate_quiz_questions`: tokenize into
sentences, clamp the requested count to the number of sentences, and run
the question loop. -/
def generate_quiz_questions (stop : List (List Char))
    (content : List Char) (num_questions : Nat) : List QuizQuestion :=
  let sentences := sentTokenize content
  quizLoop stop sentences (min num_questions sentences.length) 0 []

/-! ## The monolithic application (content-service/app.py)

`app.py` carries its own, sentence-based transformation pipeline
(`clean_text_for_processing`, `transform_content_internal`) and its own
endpoint input checks; it does not import `TransformationService`. -/

/-- Scan for `re.sub(r'\n+', '\n', s)`. -/
def collapseNLRunsAux : Bool → List Char → List Char
  | _, [] => []
  | prevNL, c :: cs =>
    if c = '\n' then
      if prevNL then collapseNLRunsAux true cs
      else '\n' :: collapseNLRunsAux true cs
    else c :: collapseNLRunsAux false cs

/-- Model of `re.sub(r'\n+', '\n', s)`: collapse newline runs to one. -/
def collapseNLRuns (s : List Char) : List Char := collapseNLRunsAux false s

/-- Scan for `re.sub(r' +', ' ', s)` (plain spaces only). -/
def collapseSpacesAux : Bool → List Char → List Char
  | _, [] => []
  | prevSp, c :: cs =>
    if c = ' ' then
      if prevSp then collapseSpacesAux true cs
      else ' ' :: collapseSpacesAux true cs
    else c :: collapseSpacesAux false cs

/-- Model of `re.sub(r' +', ' ', s)`: collapse runs of spaces to one. -/
def collapseSpaces (s : List Char) : List Char := collapseSpacesAux false s

/-- A character removed by `clean_text_for_processing`: C0/C1 control
characters and DEL (`[\x00-\x1F\x7F-\x9F]`) or the problematic Unicode
marks (`[​-‏‪-‮]`). -/
def isRemovedChar (c : Char) : Bool :=
  c.toNat ≤ 0x1f || (0x7f ≤ c.toNat && c.toNat ≤ 0x9f) ||
    (0x200b ≤ c.toNat && c.toNat ≤ 0x200f) ||
    (0x202a ≤ c.toNat && c.toNat ≤ 0x202e)

/-- Model of `app.clean_text_for_processing`: collapse newline runs, collapse
space runs, delete control and problematic Unicode characters, strip.
(The control-character deletion removes every newline and tab the first
substitution left in place.) -/
def clean_text_for_processing (text : List Char) : List Char :=
  strip ((collapseSpaces (collapseNLRuns text)).filter
    (fun c => !isRemovedChar c))

/-- A micro-lesson dictionary as produced by
`transform_content_internal` (the `is_summary` key is absent for
ordinary lessons, modelled as `false`). -/
structure AppLesson where
  title : List Char
  content : List Char
  estimated_minutes : Nat
  word_count : Nat
  order : Nat
  is_summary : Bool
deriving DecidableEq

/-- The title of a non-final lesson in `transform_content_internal`:
lesson 1 gets its first 10 words as a tentative title when it has more
than 50 words (and at least 3 such words), later lessons a generic
label. -/
def appMidTitle (cur : List Char) (lessonNum : Nat) : List Char :=
  if lessonNum = 1 ∧ 50 < (wordTokenize cur).length then
    let firstWords := (wordTokenize cur).take 10
    if 3 ≤ firstWords.length then
      List.intercalate [' '] firstWords ++ "...".toList
    else ("Micro-leçon " ++ toString lessonNum).toList
  else ("Micro-leçon " ++ toString lessonNum).toList

/-- The sentence-accumulation loop of `transform_content_internal`:
before adding a sentence, if the accumulated word count plus the
sentence's would exceed the target and the accumulator is nonempty, emit
a lesson (its `estimated_minutes` clamped between 1 and the target
duration); each sentence is appended to the accumulator followed by a
space; a nonempty accumulator left at the end is emitted as the final
lesson (clamped below by 1 only). -/
def appBuildLessons (target dur : Nat) :
    List (List Char) → List Char → Nat → Nat → List AppLesson
  | [], cur, wc, n =>
    if cur.isEmpty then []
    else
      [{ title := ("Micro-leçon " ++ toString (n + 1)).toList
         content := strip cur
         estimated_minutes := max 1 (pyRoundDiv wc 200)
         word_count := wc
         order := n + 1
         is_summary := false }]
  | s :: ss, cur, wc, n =>
    let sw := (wordTokenize s).length
    if target < wc + sw ∧ ¬ cur.isEmpty then
      { title := appMidTitle cur (n + 1)
        content := strip cur
        estimated_minutes := max 1 (min dur (pyRoundDiv wc 200))
        word_count := wc
        order := n + 1
        is_summary := false } ::
        appBuildLessons target dur ss (s ++ [' ']) sw (n + 1)
    else
      appBuildLessons target dur ss (cur ++ s ++ [' ']) (wc + sw) n

/-- Model of `app.transform_content_internal` (the NLTK branch, which the service
takes when the sentence tokenizer is importable): clean the text, reject
it when shorter than 10 characters, split into sentences, accumulate
them into lessons under the word target `target_duration * 200`, and —
when exactly one lesson results from a document of fewer than 500
words — retitle it as a summary and set its `is_summary` flag.  Only
the `micro_lessons` list of the returned dictionary is modelled. -/
def transform_content_internal (content : List Char)
    (target_duration : Nat) : Except (List Char) (List AppLesson) :=
  if (clean_text_for_processing content).isEmpty ∨
      (strip (clean_text_for_processing content)).length < 10 then
    Except.error "Contenu trop court ou vide".toList
  else
    match appBuildLessons (target_duration * 200) target_duration
        (sentTokenize (clean_text_for_processing content)) [] 0 0 with
    | [l] =>
      if (wordTokenize (clean_text_for_processing content)).length < 500 then
        Except.ok [{ l with title := "Résumé complet".toList,
                            is_summary := true }]
      else Except.ok [l]
    | ls => Except.ok ls

/-- The input check of the `/upload` endpoint in `app.py`
(`if not text_content or len(text_content.strip()) < 50`): `true` when
the extracted text passes the 50-character minimum. -/
def uploadLengthCheckOK (text : List Char) : Bool :=
  !(text.isEmpty || (strip text).length < 50)

/-! ## Lemmas about the text primitives -/

theorem mem_collapseWSAux {c : Char} :
    ∀ (s : List Char) (b : Bool), c ∈ collapseWSAux b s →
      c = ' ' ∨ isSpaceChar c = false
  | [], b, h => by simp [collapseWSAux] at h
  | x :: xs, b, h => by
    by_cases hx : isSpaceChar x
    · by_cases hb : b
      · simp [collapseWSAux, hx, hb] at h
        exact mem_collapseWSAux xs true h
      · simp [collapseWSAux, hx, hb] at h
        rcases h with h | h
        · exact Or.inl h
        · exact mem_collapseWSAux xs true h
    · simp [collapseWSAux, hx] at h
      rcases h with h | h
      · subst h; exact Or.inr (by simpa using hx)
      · exact mem_collapseWSAux xs false h

/-- Every character of a whitespace-collapsed text is a space or a
non-whitespace character; in particular no newline survives. -/
theorem collapseWS_no_newline (s : List Char) : '\n' ∉ collapseWS s := by
  intro h
  rcases mem_collapseWSAux s false h with h' | h'
  · exact absurd h' (by decide)
  · exact absurd h' (by simp [isSpaceChar])

theorem collapseNL3Aux_eq_self :
    ∀ (s : List Char), (∀ c ∈ s, c ≠ '\n') → collapseNL3Aux 0 s = s
  | [], _ => by simp [collapseNL3Aux, flushNL]
  | c :: cs, h => by
    have hc : c ≠ '\n' := h c (by simp)
    simp only [collapseNL3Aux, if_neg hc, flushNL]
    simpa using collapseNL3Aux_eq_self cs (fun x hx => h x (by simp [hx]))

theorem dropWhile_head?_false {p : Char → Bool} :
    ∀ {l : List Char} {c : Char} {rest : List Char},
      l.dropWhile p = c :: rest → p c = false
  | [], c, rest, h => by simp [List.dropWhile] at h
  | x :: xs, c, rest, h => by
    by_cases hx : p x
    · rw [List.dropWhile_cons, if_pos hx] at h
      exact dropWhile_head?_false h
    · rw [List.dropWhile_cons, if_neg hx] at h
      cases h
      simpa using hx

theorem getLast?_dropWhile (p : Char → Bool) :
    ∀ l : List Char, l.dropWhile p = [] ∨
      (l.dropWhile p).getLast? = l.getLast?
  | [] => Or.inl rfl
  | c :: cs => by
    by_cases hc : p c
    · rw [List.dropWhile_cons, if_pos hc]
      by_cases hd : List.dropWhile p cs = []
      · exact Or.inl hd
      · right
        rcases getLast?_dropWhile p cs with h | h
        · exact absurd h hd
        · rw [h]
          cases cs with
          | nil => simp [List.dropWhile_nil] at hd
          | cons x xs => simp
    · rw [List.dropWhile_cons, if_neg hc]
      exact Or.inr rfl

theorem dropWhile_eq_self_of_head {p : Char → Bool} :
    ∀ {l : List Char}, (∀ c rest, l = c :: rest → p c = false) →
      l.dropWhile p = l
  | [], _ => rfl
  | c :: cs, h => by
    rw [List.dropWhile_cons, if_neg (by simp [h c cs rfl])]

theorem strip_subset {c : Char} {s : List Char} (h : c ∈ strip s) : c ∈ s := by
  unfold strip at h
  rw [List.mem_reverse] at h
  have h1 := (List.dropWhile_sublist isSpaceChar).subset h
  rw [List.mem_reverse] at h1
  exact (List.dropWhile_sublist isSpaceChar).subset h1

theorem strip_head_false {s : List Char} {c : Char} {rest : List Char}
    (h : strip s = c :: rest) : isSpaceChar c = false := by
  unfold strip at h
  have : (((s.dropWhile isSpaceChar).reverse.dropWhile isSpaceChar).reverse).head? =
      some c := by rw [h]; rfl
  rw [List.head?_reverse] at this
  rcases getLast?_dropWhile isSpaceChar (s.dropWhile isSpaceChar).reverse with hnil | hlast
  · rw [hnil] at h; simp at h
  · rw [hlast, List.getLast?_reverse] at this
    rcases hd : s.dropWhile isSpaceChar with _ | ⟨d, ds⟩
    · rw [hd] at h; simp at h
    · rw [hd] at this
      simp at this
      subst this
      exact dropWhile_head?_false hd

theorem strip_getLast_false {s : List Char} {c : Char}
    (h : (strip s).getLast? = some c) : isSpaceChar c = false := by
  unfold strip at h
  rw [List.getLast?_reverse] at h
  rcases hd : (s.dropWhile isSpaceChar).reverse.dropWhile isSpaceChar with _ | ⟨d, ds⟩
  · rw [hd] at h; simp at h
  · rw [hd] at h
    simp at h
    subst h
    exact dropWhile_head?_false hd

/-- Stripping is idempotent (Python `s.strip().strip() == s.strip()`). -/
theorem strip_strip (s : List Char) : strip (strip s) = strip s := by
  have h1 : (strip s).dropWhile isSpaceChar = strip s := by
    apply dropWhile_eq_self_of_head
    intro c rest hc
    exact strip_head_false hc
  have h2 : (strip s).reverse.dropWhile isSpaceChar = (strip s).reverse := by
    apply dropWhile_eq_self_of_head
    intro c rest hc
    have : (strip s).reverse.head? = some c := by rw [hc]; rfl
    rw [List.head?_reverse] at this
    exact strip_getLast_false this
  show (((strip s).dropWhile isSpaceChar).reverse.dropWhile isSpaceChar).reverse =
    strip s
  rw [h1, h2, List.reverse_reverse]

theorem collapseNL3_collapseWS (c : List Char) :
    collapseNL3 (collapseWS c) = collapseWS c :=
  collapseNL3Aux_eq_self _ (fun _x hx hxn => collapseWS_no_newline c (hxn ▸ hx))

/-- `_clean_content` reduces to collapsing whitespace and stripping: the
newline normalization is a no-op because the first substitution already
removed every newline. -/
theorem clean_content_eq (c : List Char) :
    clean_content c = strip (collapseWS c) := by
  unfold clean_content
  rw [collapseNL3_collapseWS]

/-- The cleaned content never contains a newline. -/
theorem clean_content_no_newline (c : List Char) : '\n' ∉ clean_content c := by
  intro h
  rw [clean_content_eq] at h
  exact collapseWS_no_newline c (strip_subset h)

/-- The cleaned content is already stripped. -/
theorem strip_clean_content (c : List Char) :
    strip (clean_content c) = clean_content c := by
  rw [clean_content_eq]
  exact strip_strip _

theorem splitOnNN_of_no_newline :
    ∀ s : List Char, '\n' ∉ s → splitOnNN s = [s]
  | [], _ => rfl
  | [c], _ => rfl
  | c :: d :: rest, h => by
    have hc : c ≠ '\n' := fun hc => h (hc ▸ List.mem_cons_self c (d :: rest))
    have hrec := splitOnNN_of_no_newline (d :: rest)
      (fun hm => h (List.mem_cons_of_mem c hm))
    simp only [splitOnNN]
    rw [if_neg (fun hcd => hc hcd.1), hrec]

/-- On cleaned content, `_split_into_paragraphs` yields at most one
paragraph group: the whole cleaned text, or nothing when it is empty. -/
theorem split_into_paragraphs_clean (c : List Char) :
    split_into_paragraphs (clean_content c) =
      if (clean_content c).isEmpty then [] else [clean_content c] := by
  unfold split_into_paragraphs
  rw [splitOnNN_of_no_newline _ (clean_content_no_newline c)]
  by_cases hempty : (clean_content c).isEmpty
  · have : clean_content c = [] := by
      cases h : clean_content c
      · rfl
      · rw [h] at hempty; simp [List.isEmpty] at hempty
    rw [if_pos hempty]
    simp [this, strip, mergeShortAux]
  · rw [if_neg hempty]
    have hfilter : (([clean_content c].map strip).filter (fun p => !p.isEmpty))
        = [clean_content c] := by
      simp only [List.map_cons, List.map_nil, strip_clean_content]
      rw [List.filter_cons]
      simp [hempty]
    show mergeShortAux (([clean_content c].map strip).filter
      (fun p => !p.isEmpty)) [] = _
    rw [hfilter]
    show mergeShortAux [clean_content c] [] = _
    simp only [mergeShortAux]
    by_cases hlen : (wordTokenize (clean_content c)).length < 50
    · rw [if_pos hlen]
      have hj : joinShort [] (clean_content c) = clean_content c := by
        simp [joinShort]
      rw [hj]
      simp [mergeShortAux, hempty]
    · rw [if_neg hlen]
      simp [mergeShortAux]

/-- On any input, `split_into_micro_lessons` degenerates: the cleaned
content forms a single paragraph group, so at most one lesson is built,
and that lesson carries the entire cleaned content. -/
theorem split_into_micro_lessons_clean (stop : List (List Char))
    (c : List Char) (d : Nat) :
    split_into_micro_lessons stop c d =
      if (clean_content c).isEmpty then []
      else [create_lesson_from_data stop
        { paragraphs := [clean_content c],
          word_count := (wordTokenize (clean_content c)).length,
          sentences := sentTokenize (clean_content c) } 1] := by
  unfold split_into_micro_lessons
  rw [split_into_paragraphs_clean]
  by_cases hempty : (clean_content c).isEmpty
  · rw [if_pos hempty, if_pos hempty]
    simp [buildLessons]
  · rw [if_neg hempty, if_neg hempty]
    simp only [buildLessons]
    rw [if_neg (fun h => h.2 rfl)]
    simp only [buildLessons, List.nil_append, Nat.zero_add]
    rw [if_neg (by simp)]

/-! ## Claims C10 and C1 -/

/-- C10: for every input string, the cleaned text produced by
`_clean_content` contains no newline character (the whitespace-collapsing
substitution runs first and removes all newlines), so
`_split_into_paragraphs` returns at most one paragraph group on it, and
`split_into_micro_lessons` returns at most one lesson, for any stopword
set and any target duration. -/
theorem claim_c10_clean_content_kills_paragraph_splitting (c : List Char) :
    '\n' ∉ clean_content c
      ∧ (split_into_paragraphs (clean_content c)).length ≤ 1
      ∧ ∀ (stop : List (List Char)) (d : Nat),
          (split_into_micro_lessons stop c d).length ≤ 1 := by
  refine ⟨clean_content_no_newline c, ?_, ?_⟩
  · rw [split_into_paragraphs_clean]
    by_cases h : (clean_content c).isEmpty
    · simp [h]
    · simp [h]
  · intro stop d
    rw [split_into_micro_lessons_clean]
    by_cases h : (clean_content c).isEmpty
    · simp [h]
    · simp [h]

/-- C1: for every input meeting the 10-character direct-submission
minimum after normalization, segmentation conserves the source content:
the lessons' `word_count` fields sum to the word count of the normalized
input, and joining the lessons' `content` fields in order (with the
paragraph separator used by the code) reproduces the normalized source
text exactly — no paragraph duplicated or dropped. -/
theorem claim_c1_segmentation_conserves_content (stop : List (List Char))
    (c : List Char) (d : Nat) (hmin : 10 ≤ (clean_content c).length) :
    (((split_into_micro_lessons stop c d).map (fun l => l.word_count)).sum
        = (wordTokenize (clean_content c)).length)
      ∧ List.intercalate ('\n' :: '\n' :: [])
          ((split_into_micro_lessons stop c d).map (fun l => l.content))
        = clean_content c := by
  have hne : ¬ (clean_content c).isEmpty := by
    cases h : clean_content c
    · rw [h] at hmin; simp at hmin
    · simp
  rw [split_into_micro_lessons_clean, if_neg hne]
  constructor
  · simp [create_lesson_from_data]
  · simp [create_lesson_from_data, List.intercalate]

/-- Witness for C1: a concrete 40-character input. -/
theorem claim_c1_segmentation_conserves_content_witness :
    10 ≤ (clean_content "Formal verification of software systems.".toList).length
      ∧ ((((split_into_micro_lessons []
              "Formal verification of software systems.".toList 5).map
            (fun l => l.word_count)).sum
          = (wordTokenize
              (clean_content
                "Formal verification of software systems.".toList)).length)
        ∧ List.intercalate ('\n' :: '\n' :: [])
            ((split_into_micro_lessons []
                "Formal verification of software systems.".toList 5).map
              (fun l => l.content))
          = clean_content "Formal verification of software systems.".toList) :=
  ⟨by decide,
    claim_c1_segmentation_conserves_content [] _ 5 (by decide)⟩

/-! ## Claim C2 -/

/-- C2 (failing input): `_clean_content` does not preserve paragraph
boundaries.  On the input `"a\n\n\nb"` the whitespace-collapsing
substitution — which runs first — removes the newlines, so the result is
`"a b"` instead of the `"a\nb"`-with-blank-line the specification
describes, and no newline remains at all. -/
theorem claim_c2_newline_collapse_bug :
    clean_content ('a' :: '\n' :: '\n' :: '\n' :: 'b' :: [])
        = ('a' :: ' ' :: 'b' :: [])
      ∧ '\n' ∉ clean_content ('a' :: '\n' :: '\n' :: '\n' :: 'b' :: []) := by
  exact ⟨by decide, by decide⟩

/-! ## Claim C6 -/

/-- Every lesson emitted by the accumulation loop is built by
`_create_lesson_from_data` from some accumulator and order. -/
theorem mem_buildLessons (stop : List (List Char)) (t : Nat) :
    ∀ (ps : List (List Char)) (acc : LessonAcc) (n : Nat) (l : Lesson),
      l ∈ buildLessons stop t ps acc n →
      ∃ a o, l = create_lesson_from_data stop a o
  | [], acc, n, l, h => by
    by_cases he : acc.paragraphs.isEmpty
    · simp [buildLessons, he] at h
    · simp [buildLessons, he] at h
      exact ⟨acc, n + 1, h⟩
  | para :: rest, acc, n, l, h => by
    simp only [buildLessons] at h
    split at h
    · rcases List.mem_cons.mp h with h1 | h1
      · exact ⟨acc, n + 1, h1⟩
      · exact mem_buildLessons stop t rest _ _ l h1
    · exact mem_buildLessons stop t rest _ _ l h

/-- C6: every lesson emitted by segmentation satisfies
`estimated_minutes = max(1, round(word_count / 200))` — with `round` the
Python half-to-even rounding the source uses and 200 the fixed
words-per-minute constant — and consequently `estimated_minutes ≥ 1`,
for any stopword set, input and target duration. -/
theorem claim_c6_estimated_minutes_invariant (stop : List (List Char))
    (c : List Char) (d : Nat) (l : Lesson)
    (h : l ∈ split_into_micro_lessons stop c d) :
    l.estimated_minutes = max 1 (pyRoundDiv l.word_count 200)
      ∧ 1 ≤ l.estimated_minutes := by
  unfold split_into_micro_lessons at h
  obtain ⟨a, o, rfl⟩ := mem_buildLessons stop (d * 200) _ _ _ l h
  constructor
  · simp [create_lesson_from_data]
  · simp [create_lesson_from_data]

/-- Witness for C6 at a concrete input with one emitted lesson. -/
theorem claim_c6_estimated_minutes_invariant_witness :
    (split_into_micro_lessons []
        "Formal methods improve software quality.".toList 5).all
      (fun l =>
        (l.estimated_minutes == max 1 (pyRoundDiv l.word_count 200)) &&
          decide (1 ≤ l.estimated_minutes)) = true := by
  rw [List.all_eq_true]
  intro l hl
  have h := claim_c6_estimated_minutes_invariant []
    "Formal methods improve software quality.".toList 5 l hl
  rw [Bool.and_eq_true, beq_iff_eq, decide_eq_true_eq]
  exact ⟨h.1, h.2⟩

/-! ## Claim C9 -/

/-- A question actually produced by `_generate_question_from_sentence`
always carries the four fixed options, the first of them as the correct
answer, and one point. -/
theorem genQuestion_fields {stop : List (List Char)} {s : List Char}
    {n : Nat} {q : QuizQuestion}
    (h : generate_question_from_sentence stop s n = some q) :
    q.options = quizOptions
      ∧ q.correct_answer = "Un élément technique essentiel".toList
      ∧ q.points = 1 := by
  unfold generate_question_from_sentence at h
  split at h
  · exact absurd h (by simp)
  · rw [Option.some.injEq] at h
    subst h
    exact ⟨rfl, rfl, rfl⟩

theorem mem_quizLoop (stop : List (List Char)) (sents : List (List Char)) :
    ∀ (fuel i : Nat) (used : List (List Char)) (q : QuizQuestion),
      q ∈ quizLoop stop sents fuel i used →
      q.options = quizOptions
        ∧ q.correct_answer = "Un élément technique essentiel".toList
        ∧ q.points = 1
  | 0, _, _, _, h => by simp [quizLoop] at h
  | fuel + 1, i, used, q, h => by
    simp only [quizLoop] at h
    split at h
    · simp at h
    · split at h
      · exact mem_quizLoop stop sents fuel (i + 1) _ q h
      · rcases List.mem_cons.mp h with h1 | h1
        · subst h1
          exact genQuestion_fields (by assumption)
        · exact mem_quizLoop stop sents fuel (i + 1) _ q h1

/-- C9: every quiz question emitted by the quiz generator has exactly 4
options, its `correct_answer` is an element of its options — always the
first, fixed option text, regardless of the focus keyword — and its
`points` field is 1. -/
theorem claim_c9_quiz_question_shape (stop : List (List Char))
    (content : List Char) (n : Nat) (q : QuizQuestion)
    (h : q ∈ generate_quiz_questions stop content n) :
    q.options.length = 4
      ∧ q.options.head? = some q.correct_answer
      ∧ q.correct_answer = "Un élément technique essentiel".toList
      ∧ q.points = 1 := by
  unfold generate_quiz_questions at h
  obtain ⟨hopt, hca, hpts⟩ := mem_quizLoop stop _ _ _ _ q h
  refine ⟨by rw [hopt]; rfl, ?_, hca, hpts⟩
  rw [hopt, hca]
  rfl

/-- Witness for C9 at a concrete input with one emitted question. -/
theorem claim_c9_quiz_question_shape_witness :
    (generate_quiz_questions []
        "Python dictionaries support efficient lookup operations today.".toList
        3).all
      (fun q =>
        (q.options.length == 4) && (q.options.head? == some q.correct_answer) &&
          (q.correct_answer == "Un élément technique essentiel".toList) &&
          (q.points == 1)) = true := by
  rw [List.all_eq_true]
  intro q hq
  have h := claim_c9_quiz_question_shape []
    "Python dictionaries support efficient lookup operations today.".toList
    3 q hq
  simp only [Bool.and_eq_true, beq_iff_eq]
  exact ⟨⟨⟨h.1, h.2.1⟩, h.2.2.1⟩, h.2.2.2⟩

/-! ## Claim C5 -/

/-- C5: the monolithic app enforces both entry-point minimums.  Direct
submission (`transform_content_internal`, reached from the `/transform`
and `/transform-micro` endpoints): any text whose normalized form is
shorter than 10 characters is rejected with the invalid-input error.
Uploaded-file submission (`/upload`): the extracted text passes the
length check exactly when its stripped length reaches the distinct
50-character minimum. -/
theorem claim_c5_entry_point_minimums :
    (∀ (content : List Char) (dur : Nat),
        (strip (clean_text_for_processing content)).length < 10 →
        transform_content_internal content dur =
          Except.error "Contenu trop court ou vide".toList)
      ∧ (∀ text : List Char,
          uploadLengthCheckOK text = true ↔ 50 ≤ (strip text).length) := by
  constructor
  · intro content dur h
    unfold transform_content_internal
    rw [if_pos (Or.inr h)]
  · intro text
    rcases text with _ | ⟨c, cs⟩
    · decide
    · unfold uploadLengthCheckOK
      simp only [List.isEmpty_cons, Bool.false_or, Bool.not_eq_true',
        decide_eq_false_iff_not, Nat.not_lt]

/-- Witness for C5: the 3-character input `"Hi."` is rejected by direct
submission, and a 20-character extracted text fails the upload minimum. -/
theorem claim_c5_entry_point_minimums_witness :
    ((strip (clean_text_for_processing "Hi.".toList)).length < 10
      ∧ transform_content_internal "Hi.".toList 5 =
          Except.error "Contenu trop court ou vide".toList)
      ∧ (uploadLengthCheckOK "short extracted text".toList = true ↔
          50 ≤ (strip "short extracted text".toList).length) :=
  ⟨⟨by decide, claim_c5_entry_point_minimums.1 "Hi.".toList 5 (by decide)⟩,
    claim_c5_entry_point_minimums.2 "short extracted text".toList⟩

/-! ## Claim C8 -/

/-- C8: when `transform_content_internal` produces exactly one lesson
from a document whose cleaned word count is below 500, that lesson is
marked as the summary variant: the same `AppLesson` shape with its
`is_summary` flag set. -/
theorem claim_c8_single_short_lesson_is_summary (content : List Char)
    (dur : Nat) (lessons : List AppLesson)
    (hok : transform_content_internal content dur = Except.ok lessons)
    (hone : lessons.length = 1)
    (hwc : (wordTokenize (clean_text_for_processing content)).length < 500) :
    ∀ l ∈ lessons, l.is_summary = true := by
  unfold transform_content_internal at hok
  split at hok
  · exact absurd hok (by simp)
  · split at hok
    · rw [Except.ok.injEq] at hok
      subst hok
      intro l' hl'
      rw [List.mem_singleton] at hl'
      subst hl'
      rfl
    · rw [Except.ok.injEq] at hok
      subst hok
      intro l' hl'
      exfalso
      obtain ⟨a, ha⟩ := List.length_eq_one.mp hone
      simp_all

deriving instance DecidableEq for Except

/-- The single summary lesson produced from the C8 witness document. -/
def c8WitnessLesson : AppLesson :=
  { title := "Résumé complet".toList
    content := "Graph algorithms matter. They power routing systems.".toList
    estimated_minutes := 1
    word_count := 7
    order := 1
    is_summary := true }

/-- Witness for C8: a 7-word document yields one lesson, flagged as the
summary variant. -/
theorem claim_c8_single_short_lesson_is_summary_witness :
    transform_content_internal
        "Graph algorithms matter. They power routing systems.".toList 5 =
      Except.ok [c8WitnessLesson]
      ∧ ([c8WitnessLesson] : List AppLesson).length = 1
      ∧ (wordTokenize (clean_text_for_processing
          "Graph algorithms matter. They power routing systems.".toList)).length
          < 500
      ∧ ∀ l ∈ ([c8WitnessLesson] : List AppLesson), l.is_summary = true :=
  ⟨by decide, rfl, by decide,
    claim_c8_single_short_lesson_is_summary
      "Graph algorithms matter. They power routing systems.".toList 5 _
      (by decide) rfl (by decide)⟩

/-! ## Claim C7 -/

theorem char_toNat_ofNat {n : Nat} (h : n.isValidChar) :
    (Char.ofNat n).toNat = n := by
  unfold Char.ofNat
  rw [dif_pos h]
  rfl

/-- After Python lowercasing, an alphabetic character is a lowercase
letter. -/
theorem pyToLower_lowercase (c : Char)
    (h : isAlphaChar (pyToLower c) = true) :
    'a' ≤ pyToLower c ∧ pyToLower c ≤ 'z' := by
  unfold pyToLower at h ⊢
  by_cases hc : 'A' ≤ c ∧ c ≤ 'Z'
  · rw [if_pos hc] at h ⊢
    have h65 : 65 ≤ c.toNat := hc.1
    have h90 : c.toNat ≤ 90 := hc.2
    have hv : (c.toNat + 32).isValidChar := by
      unfold Nat.isValidChar
      omega
    have ht := char_toNat_ofNat hv
    constructor
    · show (97 : Nat) ≤ (Char.ofNat (c.toNat + 32)).toNat
      omega
    · show (Char.ofNat (c.toNat + 32)).toNat ≤ (122 : Nat)
      omega
  · rw [if_neg hc] at h ⊢
    unfold isAlphaChar at h
    rw [Bool.or_eq_true, Bool.and_eq_true, Bool.and_eq_true,
      decide_eq_true_eq, decide_eq_true_eq, decide_eq_true_eq,
      decide_eq_true_eq] at h
    rcases h with h | h
    · exact h
    · exact absurd h hc

/-- Every character of a token produced by the whitespace tokenizer
comes from the tokenized text (or from the carried partial word). -/
theorem mem_splitWSAux {x : List Char} :
    ∀ (s cur : List Char), x ∈ splitWSAux s cur →
      ∀ ch ∈ x, ch ∈ s ∨ ch ∈ cur
  | [], cur, hx => by
    simp only [splitWSAux] at hx
    split at hx
    · simp at hx
    · rw [List.mem_singleton] at hx
      subst hx
      intro ch hch
      exact Or.inr (List.mem_reverse.mp hch)
  | c :: cs, cur, hx => by
    simp only [splitWSAux] at hx
    split at hx
    · rw [List.mem_append] at hx
      rcases hx with hx | hx
      · split at hx
        · simp at hx
        · rw [List.mem_singleton] at hx
          subst hx
          intro ch hch
          exact Or.inr (List.mem_reverse.mp hch)
      · intro ch hch
        rcases mem_splitWSAux cs [] hx ch hch with h | h
        · exact Or.inl (List.mem_cons_of_mem c h)
        · simp at h
    · intro ch hch
      rcases mem_splitWSAux cs (c :: cur) hx ch hch with h | h
      · exact Or.inl (List.mem_cons_of_mem c h)
      · rcases List.mem_cons.mp h with h1 | h1
        · exact Or.inl (h1 ▸ List.mem_cons_self c cs)
        · exact Or.inr h1

theorem mem_wordTokenize {x s : List Char} (hx : x ∈ wordTokenize s) :
    ∀ ch ∈ x, ch ∈ s := by
  intro ch hch
  rcases mem_splitWSAux s [] hx ch hch with h | h
  · exact h
  · simp at h

/-- Facts about every token that survives the keyword filters. -/
theorem mem_keywordTokens {stop : List (List Char)} {content w : List Char}
    (h : w ∈ keywordTokens stop content) :
    w ∉ stop ∧ 3 < w.length ∧ isAlphaStr w = true
      ∧ ∀ ch ∈ w, ch ∈ content.map pyToLower := by
  unfold keywordTokens at h
  rw [List.mem_filter] at h
  obtain ⟨h1, hstop⟩ := h
  rw [List.mem_filter] at h1
  obtain ⟨hmem, hpred⟩ := h1
  rw [Bool.and_eq_true, decide_eq_true_eq] at hpred
  rw [decide_eq_true_eq] at hstop
  exact ⟨hstop, hpred.2, hpred.1, mem_wordTokenize hmem⟩

/-- The ordering `Counter.most_common` guarantees: strictly greater
count, or equal count and strictly earlier first occurrence (`pos`). -/
def keywordOrder (cnt pos : List Char → Nat) (a b : List Char) : Prop :=
  cnt b < cnt a ∨ (cnt a = cnt b ∧ pos a < pos b)

theorem mem_insertDesc {cnt : List Char → Nat} {w x : List Char} :
    ∀ {l : List (List Char)}, x ∈ insertDesc cnt w l ↔ x = w ∨ x ∈ l
  | [] => by simp [insertDesc]
  | y :: ys => by
    simp only [insertDesc]
    split
    · simp [or_comm, or_assoc, or_left_comm]
    · rw [List.mem_cons, mem_insertDesc, List.mem_cons]
      tauto

theorem mem_sortDesc {cnt : List Char → Nat} {x : List Char} :
    ∀ {l : List (List Char)}, x ∈ sortDesc cnt l ↔ x ∈ l
  | [] => by simp [sortDesc]
  | y :: ys => by
    simp only [sortDesc]
    rw [mem_insertDesc, mem_sortDesc, List.mem_cons]

theorem pairwise_insertDesc {cnt pos : List Char → Nat} {w : List Char} :
    ∀ {l : List (List Char)},
      l.Pairwise (keywordOrder cnt pos) →
      (∀ y ∈ l, pos w < pos y) →
      (insertDesc cnt w l).Pairwise (keywordOrder cnt pos)
  | [], _, _ => List.pairwise_singleton _ _
  | y :: ys, hl, hpos => by
    rw [List.pairwise_cons] at hl
    obtain ⟨hy, hys⟩ := hl
    simp only [insertDesc]
    split
    · rename_i hcnt
      rw [List.pairwise_cons]
      constructor
      · intro z hz
        rcases List.mem_cons.mp hz with hz | hz
        · subst hz
          rcases Nat.lt_or_ge (cnt z) (cnt w) with h | h
          · exact Or.inl h
          · exact Or.inr ⟨Nat.le_antisymm h hcnt, hpos z (List.mem_cons_self _ _)⟩
        · have hzy : cnt z ≤ cnt y := by
            rcases hy z hz with h | h
            · exact Nat.le_of_lt h
            · exact Nat.le_of_eq h.1.symm
          rcases Nat.lt_or_ge (cnt z) (cnt w) with h | h
          · exact Or.inl h
          · exact Or.inr ⟨Nat.le_antisymm h (Nat.le_trans hzy hcnt),
              hpos z (List.mem_cons_of_mem y hz)⟩
      · rw [List.pairwise_cons]
        exact ⟨hy, hys⟩
    · rename_i hcnt
      rw [List.pairwise_cons]
      constructor
      · intro z hz
        rcases mem_insertDesc.mp hz with hz | hz
        · subst hz
          exact Or.inl (Nat.lt_of_not_le hcnt)
        · exact hy z hz
      · exact pairwise_insertDesc hys
          (fun z hz => hpos z (List.mem_cons_of_mem y hz))

/-- The stable descending sort of a list with strictly increasing `pos`
is ordered by `keywordOrder`: descending count, ties by `pos`. -/
theorem pairwise_sortDesc {cnt pos : List Char → Nat} :
    ∀ {l : List (List Char)},
      l.Pairwise (fun a b => pos a < pos b) →
      (sortDesc cnt l).Pairwise (keywordOrder cnt pos)
  | [], _ => List.Pairwise.nil
  | w :: ws, hl => by
    rw [List.pairwise_cons] at hl
    obtain ⟨hw, hws⟩ := hl
    simp only [sortDesc]
    exact pairwise_insertDesc (pairwise_sortDesc hws)
      (fun y hy => hw y (mem_sortDesc.mp hy))

/-- Index of the first occurrence of `w` in `ws` (length of `ws` when
absent): the first-occurrence order of keywords in the token list. -/
def firstPos (ws : List (List Char)) (w : List Char) : Nat :=
  match ws with
  | [] => 0
  | x :: xs => if x = w then 0 else firstPos xs w + 1

theorem firstPos_cons_self (w : List Char) (ws : List (List Char)) :
    firstPos (w :: ws) w = 0 := by
  simp [firstPos]

theorem firstPos_cons_ne {x w : List Char} (ws : List (List Char))
    (h : x ≠ w) : firstPos (x :: ws) w = firstPos ws w + 1 := by
  simp [firstPos, h]

/-- The deduplicated keyword list avoids `seen` and is ordered by first
occurrence in the scanned list. -/
theorem firstDedupAux_spec :
    ∀ (ws seen : List (List Char)),
      (∀ x ∈ firstDedupAux ws seen, x ∉ seen)
        ∧ (firstDedupAux ws seen).Pairwise
            (fun a b => firstPos ws a < firstPos ws b)
  | [], seen => ⟨by simp [firstDedupAux], by simp [firstDedupAux]⟩
  | w :: ws, seen => by
    by_cases hw : w ∈ seen
    · simp only [firstDedupAux, if_pos hw]
      have hmem := (firstDedupAux_spec ws seen).1
      have hpw := (firstDedupAux_spec ws seen).2
      refine ⟨hmem, List.Pairwise.imp_of_mem ?_ hpw⟩
      intro a b ha hb hab
      have hane : w ≠ a := fun h => hmem a ha (h ▸ hw)
      have hbne : w ≠ b := fun h => hmem b hb (h ▸ hw)
      rw [firstPos_cons_ne ws hane, firstPos_cons_ne ws hbne]
      omega
    · simp only [firstDedupAux, if_neg hw]
      have hmem := (firstDedupAux_spec ws (w :: seen)).1
      have hpw := (firstDedupAux_spec ws (w :: seen)).2
      constructor
      · intro x hx
        rcases List.mem_cons.mp hx with h | h
        · subst h; exact hw
        · exact fun hxseen => hmem x h (List.mem_cons_of_mem w hxseen)
      · rw [List.pairwise_cons]
        constructor
        · intro b hb
          have hbne : w ≠ b :=
            fun h => hmem b hb (h ▸ List.mem_cons_self w seen)
          rw [firstPos_cons_self, firstPos_cons_ne ws hbne]
          omega
        · refine List.Pairwise.imp_of_mem ?_ hpw
          intro a b ha hb hab
          have hane : w ≠ a :=
            fun h => hmem a ha (h ▸ List.mem_cons_self w seen)
          have hbne : w ≠ b :=
            fun h => hmem b hb (h ▸ List.mem_cons_self w seen)
          rw [firstPos_cons_ne ws hane, firstPos_cons_ne ws hbne]
          omega

theorem mem_firstDedupAux {x : List Char} :
    ∀ {ws seen : List (List Char)}, x ∈ firstDedupAux ws seen → x ∈ ws
  | [], _, h => by simp [firstDedupAux] at h
  | w :: ws, seen, h => by
    simp only [firstDedupAux] at h
    split at h
    · exact List.mem_cons_of_mem w (mem_firstDedupAux h)
    · rcases List.mem_cons.mp h with h1 | h1
      · exact h1 ▸ List.mem_cons_self w ws
      · exact List.mem_cons_of_mem w (mem_firstDedupAux h1)

/-- C7: for every stopword set, text and `top_n`, `extract_keywords`
returns at most `top_n` words; no returned word is a stopword or has 3
or fewer characters, and every character of a returned word is a
lowercase letter; and the list is ordered by strictly descending
frequency in the filtered token list, with frequency ties broken by
first-occurrence order. -/
theorem claim_c7_extract_keywords_shape (stop : List (List Char))
    (content : List Char) (top_n : Nat) :
    (extract_keywords stop content top_n).length ≤ top_n
      ∧ (∀ w ∈ extract_keywords stop content top_n,
          w ∉ stop ∧ 3 < w.length ∧
            ∀ ch ∈ w, isAlphaChar ch = true ∧ 'a' ≤ ch ∧ ch ≤ 'z')
      ∧ (extract_keywords stop content top_n).Pairwise
          (keywordOrder (fun w => (keywordTokens stop content).count w)
            (firstPos (keywordTokens stop content))) := by
  refine ⟨?_, ?_, ?_⟩
  · show ((sortDesc (fun w => (keywordTokens stop content).count w)
        (firstDedup (keywordTokens stop content))).take top_n).length ≤ top_n
    exact List.length_take_le _ _
  · intro w hw
    have hw1 : w ∈ sortDesc (fun w => (keywordTokens stop content).count w)
        (firstDedup (keywordTokens stop content)) :=
      (List.take_sublist _ _).subset hw
    have hw2 : w ∈ keywordTokens stop content :=
      mem_firstDedupAux (mem_sortDesc.mp hw1)
    obtain ⟨hstop, hlen, halpha, hchars⟩ := mem_keywordTokens hw2
    refine ⟨hstop, hlen, ?_⟩
    intro ch hch
    have hcha : isAlphaChar ch = true := by
      rw [isAlphaStr, Bool.and_eq_true, List.all_eq_true] at halpha
      exact halpha.2 ch hch
    obtain ⟨c0, _, hc0⟩ := List.mem_map.mp (hchars ch hch)
    subst hc0
    exact ⟨hcha, pyToLower_lowercase c0 hcha⟩
  · show ((sortDesc (fun w => (keywordTokens stop content).count w)
        (firstDedup (keywordTokens stop content))).take top_n).Pairwise _
    refine List.Pairwise.sublist (List.take_sublist _ _) ?_
    exact pairwise_sortDesc (firstDedupAux_spec (keywordTokens stop content) []).2

/-- Witness for C7: the keyword "edges" extracted from a concrete text
with the stopword "avec" satisfies every clause of the claim. -/
theorem claim_c7_extract_keywords_shape_witness :
    "edges".toList ∈ extract_keywords ["avec".toList]
        "Graphs and graphs use nodes avec edges EDGES edges today.".toList 3
      ∧ ("edges".toList ∉ ["avec".toList]
          ∧ 3 < ("edges".toList : List Char).length
          ∧ ∀ ch ∈ ("edges".toList : List Char),
              isAlphaChar ch = true ∧ 'a' ≤ ch ∧ ch ≤ 'z') :=
  ⟨by decide,
    (claim_c7_extract_keywords_shape ["avec".toList]
      "Graphs and graphs use nodes avec edges EDGES edges today.".toList
      3).2.1 "edges".toList (by decide)⟩

/-! ## Claim C4 -/

theorem splitWSAux_append_space :
    ∀ (a b cur : List Char),
      splitWSAux (a ++ ' ' :: b) cur = splitWSAux a cur ++ splitWSAux b []
  | [], b, cur => by
    show splitWSAux (' ' :: b) cur = splitWSAux [] cur ++ splitWSAux b []
    simp only [splitWSAux]
    rw [if_pos (by decide : isSpaceChar ' ' = true)]
  | c :: a', b, cur => by
    show splitWSAux (c :: (a' ++ ' ' :: b)) cur
      = splitWSAux (c :: a') cur ++ splitWSAux b []
    simp only [splitWSAux]
    by_cases hc : isSpaceChar c
    · rw [if_pos hc, if_pos hc, splitWSAux_append_space a' b [],
        List.append_assoc]
    · rw [if_neg hc, if_neg hc]
      exact splitWSAux_append_space a' b (c :: cur)

/-- Joining two texts with a single space concatenates their token
lists. -/
theorem wordTokenize_append_space (a b : List Char) :
    wordTokenize (a ++ ' ' :: b) = wordTokenize a ++ wordTokenize b :=
  splitWSAux_append_space a b []

/-- Space-join of a run of paragraphs (the shape `current_para` takes in
the merge loop of `_split_into_paragraphs`). -/
def joinRun : List (List Char) → List Char
  | [] => []
  | [p] => p
  | p :: ps => p ++ ' ' :: joinRun ps

theorem joinRun_append_singleton (p : List Char) :
    ∀ (run : List (List Char)), run ≠ [] →
      joinRun (run ++ [p]) = joinRun run ++ ' ' :: p
  | [], h => absurd rfl h
  | [q], _ => rfl
  | q :: r :: rs, _ => by
    have ih := joinRun_append_singleton p (r :: rs) (by simp)
    show q ++ ' ' :: joinRun ((r :: rs) ++ [p])
      = (q ++ ' ' :: joinRun (r :: rs)) ++ ' ' :: p
    rw [ih, List.append_assoc]
    rfl

theorem joinRun_ne_nil :
    ∀ (run : List (List Char)), run ≠ [] → (∀ p ∈ run, p ≠ []) →
      joinRun run ≠ []
  | [], h, _ => absurd rfl h
  | [p], _, hp => hp p (by simp)
  | p :: q :: rs, _, hp => by
    show p ++ ' ' :: joinRun (q :: rs) ≠ []
    simp

/-- Tokens of a space-joined run are the concatenation of the runs'
tokens; in particular word counts add up. -/
theorem wordTokenize_joinRun :
    ∀ (run : List (List Char)),
      (wordTokenize (joinRun run)).length
        = (run.map (fun p => (wordTokenize p).length)).sum
  | [] => by simp [joinRun, wordTokenize, splitWSAux]
  | [p] => by simp [joinRun]
  | p :: q :: rs => by
    show (wordTokenize (p ++ ' ' :: joinRun (q :: rs))).length = _
    rw [wordTokenize_append_space]
    simp only [List.length_append, List.map_cons, List.sum_cons]
    rw [wordTokenize_joinRun (q :: rs)]
    simp

theorem wordTokenize_nil : (wordTokenize []).length = 0 := rfl

/-- The characterization of the merge loop of `_split_into_paragraphs`:
every emitted group is either a single input paragraph of at least 50
words, or a space-join of a nonempty run of input paragraphs that are
each under 50 words; and no word is lost or duplicated (the groups' word
counts sum to the inputs'). -/
theorem mergeShortAux_spec (RR : List (List Char))
    (hRR : ∀ p ∈ RR, p ≠ []) :
    ∀ (rest : List (List Char)) (cur : List Char),
      (∀ p ∈ rest, p ∈ RR) →
      (cur = [] ∨ ∃ run, run ≠ [] ∧
        (∀ p ∈ run, p ∈ RR ∧ (wordTokenize p).length < 50) ∧
        cur = joinRun run) →
      (∀ g ∈ mergeShortAux rest cur,
          (g ∈ RR ∧ 50 ≤ (wordTokenize g).length) ∨
            ∃ run, run ≠ [] ∧
              (∀ p ∈ run, p ∈ RR ∧ (wordTokenize p).length < 50) ∧
              g = joinRun run)
        ∧ ((mergeShortAux rest cur).map
              (fun g => (wordTokenize g).length)).sum
            = (wordTokenize cur).length
              + (rest.map (fun p => (wordTokenize p).length)).sum
  | [], cur, _, hcur => by
    rcases hcur with rfl | hrun
    · constructor
      · intro g hg
        simp [mergeShortAux] at hg
      · simp [mergeShortAux, wordTokenize_nil]
    · obtain ⟨run, hne, hall, rfl⟩ := hrun
      have hjne : joinRun run ≠ [] :=
        joinRun_ne_nil run hne (fun p hp => hRR p (hall p hp).1)
      have hje : (joinRun run).isEmpty = false := by
        cases h : joinRun run
        · exact absurd rfl (h ▸ hjne)
        · rfl
      constructor
      · intro g hg
        simp only [mergeShortAux, hje, Bool.false_eq_true, if_false,
          List.mem_singleton] at hg
        subst hg
        exact Or.inr ⟨run, hne, hall, rfl⟩
      · simp [mergeShortAux, hje]
  | para :: rest', cur, hmem, hcur => by
    have hpara : para ∈ RR := hmem para (List.mem_cons_self _ _)
    have hmem' : ∀ p ∈ rest', p ∈ RR :=
      fun p hp => hmem p (List.mem_cons_of_mem _ hp)
    by_cases hshort : (wordTokenize para).length < 50
    · have hwc : (wordTokenize (joinShort cur para)).length
          = (wordTokenize cur).length + (wordTokenize para).length := by
        rcases hcur with rfl | ⟨run, hne, hall, rfl⟩
        · simp [joinShort, wordTokenize_nil]
        · have hjne : joinRun run ≠ [] :=
            joinRun_ne_nil run hne (fun p hp => hRR p (hall p hp).1)
          have hje : (joinRun run).isEmpty = false := by
            cases h : joinRun run
            · exact absurd rfl (h ▸ hjne)
            · rfl
          rw [joinShort, hje]
          simp only [Bool.false_eq_true, if_false]
          rw [wordTokenize_append_space, List.length_append]
      have hcur' : joinShort cur para = [] ∨ ∃ run, run ≠ [] ∧
          (∀ p ∈ run, p ∈ RR ∧ (wordTokenize p).length < 50) ∧
          joinShort cur para = joinRun run := by
        right
        rcases hcur with rfl | ⟨run, hne, hall, rfl⟩
        · refine ⟨[para], by simp, ?_, by simp [joinShort, joinRun]⟩
          intro p hp
          rw [List.mem_singleton] at hp
          subst hp
          exact ⟨hpara, hshort⟩
        · have hjne : joinRun run ≠ [] :=
            joinRun_ne_nil run hne (fun p hp => hRR p (hall p hp).1)
          have hje : (joinRun run).isEmpty = false := by
            cases h : joinRun run
            · exact absurd rfl (h ▸ hjne)
            · rfl
          refine ⟨run ++ [para], by simp, ?_, ?_⟩
          · intro p hp
            rcases List.mem_append.mp hp with hp | hp
            · exact hall p hp
            · rw [List.mem_singleton] at hp
              subst hp
              exact ⟨hpara, hshort⟩
          · rw [joinShort, hje]
            simp only [Bool.false_eq_true, if_false]
            rw [joinRun_append_singleton para run hne]
      obtain ⟨ih1, ih2⟩ :=
        mergeShortAux_spec RR hRR rest' (joinShort cur para) hmem' hcur'
      constructor
      · intro g hg
        rw [show mergeShortAux (para :: rest') cur
            = mergeShortAux rest' (joinShort cur para) from by
          simp [mergeShortAux, hshort]] at hg
        exact ih1 g hg
      · rw [show mergeShortAux (para :: rest') cur
            = mergeShortAux rest' (joinShort cur para) from by
          simp [mergeShortAux, hshort]]
        rw [ih2, hwc]
        simp only [List.map_cons, List.sum_cons]
        omega
    · obtain ⟨ih1, ih2⟩ :=
        mergeShortAux_spec RR hRR rest' [] hmem' (Or.inl rfl)
      have hred : mergeShortAux (para :: rest') cur
          = (if cur.isEmpty then [] else [cur]) ++
              para :: mergeShortAux rest' [] := by
        simp [mergeShortAux, hshort]
      constructor
      · intro g hg
        rw [hred, List.mem_append] at hg
        rcases hg with hg | hg
        · rcases hcur with rfl | ⟨run, hne, hall, rfl⟩
          · simp at hg
          · split at hg
            · simp at hg
            · rw [List.mem_singleton] at hg
              subst hg
              exact Or.inr ⟨run, hne, hall, rfl⟩
        · rcases List.mem_cons.mp hg with hg | hg
          · subst hg
            exact Or.inl ⟨hpara, Nat.le_of_not_lt hshort⟩
          · exact ih1 g hg
      · rw [hred]
        have hflush : ((if cur.isEmpty then [] else [cur]).map
            (fun g => (wordTokenize g).length)).sum
            = (wordTokenize cur).length := by
          cases h : cur
          · simp [wordTokenize_nil]
          · simp
        rw [List.map_append, List.sum_append, hflush]
        simp only [List.map_cons, List.sum_cons]
        rw [ih2, wordTokenize_nil]
        omega

/-- The stripped, nonempty blank-line-separated pieces that the merge
loop of `_split_into_paragraphs` consumes (its local `raw_paragraphs`). -/
def rawParagraphs (content : List Char) : List (List Char) :=
  ((splitOnNN content).map strip).filter (fun p => !p.isEmpty)

set_option maxRecDepth 40000 in
/-- C4 (counterexample): a paragraph under 50 words is NOT merged into
the following paragraph.  With a 3-word paragraph followed by a 50-word
paragraph, `_split_into_paragraphs` emits the short paragraph as its own
group right before the long one; and with the short paragraph at the
end, it is emitted as its own trailing group instead of being merged
backward into the preceding group. -/
theorem claim_c4_counterexample :
    (wordTokenize "aa bb cc".toList).length < 50
      ∧ 50 ≤ (wordTokenize
          (String.intercalate " " (List.replicate 50 "xy")).toList).length
      ∧ split_into_paragraphs ("aa bb cc".toList ++ '\n' :: '\n' ::
          (String.intercalate " " (List.replicate 50 "xy")).toList)
        = ["aa bb cc".toList,
            (String.intercalate " " (List.replicate 50 "xy")).toList]
      ∧ split_into_paragraphs
          ((String.intercalate " " (List.replicate 50 "xy")).toList
            ++ '\n' :: '\n' :: "aa bb cc".toList)
        = [(String.intercalate " " (List.replicate 50 "xy")).toList,
            "aa bb cc".toList] := by
  refine ⟨by decide, by decide, by decide, by decide⟩

/-- C4 (amended): in `_split_into_paragraphs`, paragraphs under 50 words
are merged only with each other: every emitted group is either a single
input paragraph of at least 50 words, or the space-join of a nonempty
run of input paragraphs each under 50 words (a run before a long
paragraph is emitted as its own group, not merged into the long one, and
a trailing run is emitted as its own final group, not dropped); the
groups' word counts sum to the input paragraphs' word counts. -/
theorem claim_c4_short_paragraph_merging (content : List Char) :
    (∀ g ∈ split_into_paragraphs content,
        (g ∈ rawParagraphs content ∧ 50 ≤ (wordTokenize g).length)
          ∨ ∃ run, run ≠ [] ∧
              (∀ p ∈ run, p ∈ rawParagraphs content ∧
                (wordTokenize p).length < 50) ∧
              g = joinRun run)
      ∧ ((split_into_paragraphs content).map
            (fun g => (wordTokenize g).length)).sum
          = ((rawParagraphs content).map
              (fun p => (wordTokenize p).length)).sum := by
  have hRR : ∀ p ∈ rawParagraphs content, p ≠ [] := by
    intro p hp
    rw [rawParagraphs, List.mem_filter] at hp
    cases h : p with
    | nil =>
      rw [h] at hp
      simp at hp
    | cons c cs => simp
  have hspec := mergeShortAux_spec (rawParagraphs content) hRR
    (rawParagraphs content) [] (fun _ hp => hp) (Or.inl rfl)
  have heq : split_into_paragraphs content
      = mergeShortAux (rawParagraphs content) [] := rfl
  rw [heq]
  refine ⟨hspec.1, ?_⟩
  rw [hspec.2, wordTokenize_nil]
  omega

set_option maxRecDepth 40000 in
/-- Witness for C4's amended claim: on the two-paragraph counterexample
document the long paragraph is characterized as a standalone group, and
the word counts are conserved. -/
theorem claim_c4_short_paragraph_merging_witness :
    (String.intercalate " " (List.replicate 50 "xy")).toList ∈
        split_into_paragraphs ("aa bb cc".toList ++ '\n' :: '\n' ::
          (String.intercalate " " (List.replicate 50 "xy")).toList)
      ∧ (((String.intercalate " " (List.replicate 50 "xy")).toList ∈
            rawParagraphs ("aa bb cc".toList ++ '\n' :: '\n' ::
              (String.intercalate " " (List.replicate 50 "xy")).toList)
          ∧ 50 ≤ (wordTokenize
              (String.intercalate " "
                (List.replicate 50 "xy")).toList).length)
          ∨ ∃ run, run ≠ [] ∧
              (∀ p ∈ run, p ∈ rawParagraphs ("aa bb cc".toList ++
                  '\n' :: '\n' ::
                  (String.intercalate " " (List.replicate 50 "xy")).toList)
                ∧ (wordTokenize p).length < 50) ∧
              (String.intercalate " " (List.replicate 50 "xy")).toList
                = joinRun run) :=
  ⟨by decide,
    (claim_c4_short_paragraph_merging ("aa bb cc".toList ++ '\n' :: '\n' ::
      (String.intercalate " " (List.replicate 50 "xy")).toList)).1
      (String.intercalate " " (List.replicate 50 "xy")).toList (by decide)⟩

/-! ## Claim C3 -/

/-- A string with no leading and no trailing whitespace is unchanged by
`strip`. -/
theorem strip_eq_self_of {t : List Char}
    (h1 : ∀ c rest, t = c :: rest → isSpaceChar c = false)
    (h2 : ∀ c, t.getLast? = some c → isSpaceChar c = false) :
    strip t = t := by
  have hd : t.dropWhile isSpaceChar = t := dropWhile_eq_self_of_head h1
  have hr : t.reverse.dropWhile isSpaceChar = t.reverse := by
    apply dropWhile_eq_self_of_head
    intro c rest hc
    have : t.reverse.head? = some c := by rw [hc]; rfl
    rw [List.head?_reverse] at this
    exact h2 c this
  show ((t.dropWhile isSpaceChar).reverse.dropWhile isSpaceChar).reverse = t
  rw [hd, hr, List.reverse_reverse]

/-- One 10-word, 20-character sentence of plain prose. -/
def c3Sentence : List Char := "a b c d e f g h i j.".toList

/-- `n + 1` copies of the sentence joined by single spaces: `c3Prose 119`
is a 1200-word prose block with no blank lines. -/
def c3Prose : Nat → List Char
  | 0 => c3Sentence
  | n + 1 => c3Sentence ++ ' ' :: c3Prose n

theorem c3Prose_head : ∀ n, ∃ t, c3Prose n = 'a' :: t
  | 0 => ⟨"\x20b c d e f g h i j.".toList, rfl⟩
  | n + 1 => ⟨"\x20b c d e f g h i j.".toList ++ ' ' :: c3Prose n, rfl⟩

theorem c3Prose_ne_nil (n : Nat) : c3Prose n ≠ [] := by
  obtain ⟨t, ht⟩ := c3Prose_head n
  rw [ht]
  simp

theorem c3Prose_getLast? : ∀ n, (c3Prose n).getLast? = some '.'
  | 0 => by decide
  | n + 1 => by
    show (c3Sentence ++ ' ' :: c3Prose n).getLast? = some '.'
    rw [List.getLast?_append]
    obtain ⟨t, ht⟩ := c3Prose_head n
    rw [ht]
    rw [show (' ' :: 'a' :: t).getLast? = ('a' :: t).getLast? from
      List.getLast?_cons_cons]
    rw [← ht, c3Prose_getLast? n]
    rfl

theorem c3_nl_step (X : List Char) :
    collapseNLRunsAux false (c3Sentence ++ ' ' :: X)
      = c3Sentence ++ ' ' :: collapseNLRunsAux false X := rfl

theorem c3_collapseNLRuns : ∀ n, collapseNLRuns (c3Prose n) = c3Prose n
  | 0 => by decide
  | n + 1 => by
    show collapseNLRunsAux false (c3Sentence ++ ' ' :: c3Prose n)
      = c3Sentence ++ ' ' :: c3Prose n
    rw [c3_nl_step]
    rw [show collapseNLRunsAux false (c3Prose n) = c3Prose n from
      c3_collapseNLRuns n]

theorem c3_spaces_step (b : Bool) (X : List Char) :
    collapseSpacesAux b (c3Sentence ++ ' ' :: X)
      = c3Sentence ++ ' ' :: collapseSpacesAux true X := by
  cases b <;> rfl

theorem c3_collapseSpacesAux : ∀ (n : Nat) (b : Bool),
    collapseSpacesAux b (c3Prose n) = c3Prose n
  | 0, b => by cases b <;> decide
  | n + 1, b => by
    show collapseSpacesAux b (c3Sentence ++ ' ' :: c3Prose n)
      = c3Sentence ++ ' ' :: c3Prose n
    rw [c3_spaces_step]
    rw [c3_collapseSpacesAux n true]

theorem c3_filter : ∀ n,
    (c3Prose n).filter (fun c => !isRemovedChar c) = c3Prose n
  | 0 => by decide
  | n + 1 => by
    show (c3Sentence ++ ' ' :: c3Prose n).filter (fun c => !isRemovedChar c)
      = c3Sentence ++ ' ' :: c3Prose n
    rw [List.filter_append]
    rw [show c3Sentence.filter (fun c => !isRemovedChar c) = c3Sentence
      from by decide]
    rw [show (' ' :: c3Prose n).filter (fun c => !isRemovedChar c)
      = ' ' :: (c3Prose n).filter (fun c => !isRemovedChar c) from rfl]
    rw [c3_filter n]

theorem c3_strip (n : Nat) : strip (c3Prose n) = c3Prose n := by
  apply strip_eq_self_of
  · intro c rest hc
    obtain ⟨t, ht⟩ := c3Prose_head n
    rw [ht] at hc
    cases hc
    decide
  · intro c hc
    rw [c3Prose_getLast? n] at hc
    cases hc
    decide

/-- Cleaning is the identity on the prose block: it has no newlines, no
double spaces, no control characters, and no surrounding whitespace. -/
theorem c3_clean (n : Nat) :
    clean_text_for_processing (c3Prose n) = c3Prose n := by
  unfold clean_text_for_processing
  rw [show collapseNLRuns (c3Prose n) = c3Prose n from c3_collapseNLRuns n]
  rw [show collapseSpaces (c3Prose n) = c3Prose n from c3_collapseSpacesAux n false]
  rw [c3_filter n, c3_strip n]

theorem c3_sent_step (X : List Char) :
    sentTokenizeAux (c3Sentence ++ ' ' :: X) []
      = c3Sentence :: sentTokenizeAux X [' '] := rfl

theorem c3_sent_step_sp (X : List Char) :
    sentTokenizeAux (c3Sentence ++ ' ' :: X) [' ']
      = c3Sentence :: sentTokenizeAux X [' '] := rfl

theorem c3_sentTokenizeAux : ∀ (n : Nat) (cur : List Char),
    cur = [] ∨ cur = [' '] →
    sentTokenizeAux (c3Prose n) cur = List.replicate (n + 1) c3Sentence
  | 0, cur, h => by rcases h with rfl | rfl <;> decide
  | n + 1, cur, h => by
    show sentTokenizeAux (c3Sentence ++ ' ' :: c3Prose n) cur = _
    rcases h with rfl | rfl
    · rw [c3_sent_step, c3_sentTokenizeAux n [' '] (Or.inr rfl)]
      rfl
    · rw [c3_sent_step_sp, c3_sentTokenizeAux n [' '] (Or.inr rfl)]
      rfl

/-- `sent_tokenize` cuts the 120-sentence prose block into exactly its
120 sentences. -/
theorem c3_sentTokenize :
    sentTokenize (c3Prose 119) = List.replicate 120 c3Sentence :=
  c3_sentTokenizeAux 119 [] (Or.inl rfl)

/-- The fields of a lesson that the C3 scenario constrains. -/
def appLessonSummary (l : AppLesson) : Nat × Nat × Nat :=
  (l.word_count, l.order, l.estimated_minutes)

theorem c3_wc_sent : (wordTokenize c3Sentence).length = 10 := by decide

/-- One accumulation step that closes the open lesson. -/
theorem appBuildLessons_cons_pos {target dur : Nat} {s : List Char}
    {ss : List (List Char)} {cur : List Char} {wc n : Nat}
    (h : target < wc + (wordTokenize s).length ∧ ¬ cur.isEmpty = true) :
    appBuildLessons target dur (s :: ss) cur wc n
      = { title := appMidTitle cur (n + 1), content := strip cur,
          estimated_minutes := max 1 (min dur (pyRoundDiv wc 200)),
          word_count := wc, order := n + 1, is_summary := false } ::
        appBuildLessons target dur ss (s ++ [' '])
          (wordTokenize s).length (n + 1) := by
  simp only [appBuildLessons]
  rw [if_pos h]

/-- One accumulation step that extends the open lesson. -/
theorem appBuildLessons_cons_neg {target dur : Nat} {s : List Char}
    {ss : List (List Char)} {cur : List Char} {wc n : Nat}
    (h : ¬ (target < wc + (wordTokenize s).length ∧ ¬ cur.isEmpty = true)) :
    appBuildLessons target dur (s :: ss) cur wc n
      = appBuildLessons target dur ss (cur ++ s ++ [' '])
          (wc + (wordTokenize s).length) n := by
  simp only [appBuildLessons]
  rw [if_neg h]

/-- Accumulation run: as long as the remaining sentences fit in the
budget, they are all absorbed into the open lesson, which is emitted
last. -/
theorem c3_fill : ∀ (m : Nat) (cur : List Char) (wc n : Nat),
    cur ≠ [] → wc + 10 * m ≤ 1000 →
    (appBuildLessons 1000 5 (List.replicate m c3Sentence) cur wc n).map
        appLessonSummary
      = [(wc + 10 * m, n + 1, max 1 (pyRoundDiv (wc + 10 * m) 200))]
  | 0, cur, wc, n, hcur, _ => by
    have hce : cur.isEmpty = false := by
      cases cur
      · exact absurd rfl hcur
      · rfl
    simp only [List.replicate, appBuildLessons, hce, Bool.false_eq_true,
      if_false, List.map_cons, List.map_nil]
    simp [appLessonSummary]
  | m + 1, cur, wc, n, hcur, hle => by
    rw [List.replicate_succ]
    rw [appBuildLessons_cons_neg (fun h => by
      have h1 := h.1
      rw [c3_wc_sent] at h1
      omega)]
    rw [c3_wc_sent]
    have harith : wc + 10 + 10 * m = wc + 10 * (m + 1) := by omega
    rw [c3_fill m (cur ++ c3Sentence ++ [' ']) (wc + 10) n (by simp)
      (by omega), harith]

/-- Overflow run: with the accumulator at `1000 - 10 j` words, the
remaining `j + 20` sentences produce exactly the 1000-word first lesson
and the 200-word second lesson. -/
theorem c3_overflow : ∀ (j : Nat) (cur : List Char) (wc : Nat),
    cur ≠ [] → wc + 10 * j = 1000 →
    (appBuildLessons 1000 5 (List.replicate (j + 20) c3Sentence) cur wc 0).map
        appLessonSummary
      = [(1000, 1, 5), (200, 2, 1)]
  | 0, cur, wc, hcur, hwc => by
    have hce : cur.isEmpty = false := by
      cases cur
      · exact absurd rfl hcur
      · rfl
    have hwc' : wc = 1000 := by omega
    subst hwc'
    have h20 : (0 + 20 : Nat) = 19 + 1 := by omega
    rw [h20, List.replicate_succ]
    rw [appBuildLessons_cons_pos ⟨by rw [c3_wc_sent]; omega, by simp [hce]⟩]
    rw [c3_wc_sent, List.map_cons,
      c3_fill 19 (c3Sentence ++ [' ']) 10 (0 + 1) (by simp) (by omega)]
    simp only [appLessonSummary]
    decide
  | j + 1, cur, wc, hcur, hwc => by
    have h2120 : j + 1 + 20 = (j + 20) + 1 := by omega
    rw [h2120, List.replicate_succ]
    rw [appBuildLessons_cons_neg (fun h => by
      have h1 := h.1
      rw [c3_wc_sent] at h1
      omega)]
    rw [c3_wc_sent]
    exact c3_overflow j (cur ++ c3Sentence ++ [' ']) (wc + 10) (by simp)
      (by omega)

theorem c3Prose_length (n : Nat) : 20 ≤ (c3Prose n).length := by
  cases n with
  | zero => decide
  | succ m =>
    show 20 ≤ (c3Sentence ++ ' ' :: c3Prose m).length
    rw [List.length_append, List.length_cons]
    have h20 : c3Sentence.length = 20 := by decide
    omega

/-- C3: on a 1200-word block of plain prose with no blank lines (120
ten-word sentences), the transformation with target 5 minutes (budget
1000 words) yields exactly 2 lessons: the first of 1000 words with order
1, the second of 200 words with order 2, each with
`estimated_minutes ≥ 1`. -/
theorem claim_c3_1200_word_prose_scenario :
    ∃ l1 l2 : AppLesson,
      transform_content_internal (c3Prose 119) 5 = Except.ok [l1, l2]
        ∧ l1.word_count = 1000 ∧ l2.word_count = 200
        ∧ l1.order = 1 ∧ l2.order = 2
        ∧ 1 ≤ l1.estimated_minutes ∧ 1 ≤ l2.estimated_minutes := by
  have hmap : (appBuildLessons 1000 5 (List.replicate 120 c3Sentence)
      [] 0 0).map appLessonSummary = [(1000, 1, 5), (200, 2, 1)] := by
    rw [show (120 : Nat) = 119 + 1 from by omega, List.replicate_succ]
    rw [@appBuildLessons_cons_neg 1000 5 c3Sentence
      (List.replicate 119 c3Sentence) [] 0 0 (fun h => h.2 rfl), c3_wc_sent]
    rw [show (119 : Nat) = 99 + 20 from by omega]
    exact c3_overflow 99 ([] ++ c3Sentence ++ [' ']) (0 + 10) (by simp)
      (by omega)
  have hlen : (appBuildLessons 1000 5 (List.replicate 120 c3Sentence)
      [] 0 0).length = 2 := by
    have h := congrArg List.length hmap
    rwa [List.length_map] at h
  obtain ⟨l1, l2, hls⟩ := List.length_eq_two.mp hlen
  rw [hls] at hmap
  simp only [List.map_cons, List.map_nil, appLessonSummary,
    List.cons.injEq, Prod.mk.injEq, and_true] at hmap
  refine ⟨l1, l2, ?_, ?_, ?_, ?_, ?_, ?_, ?_⟩
  · unfold transform_content_internal
    rw [c3_clean 119]
    rw [if_neg (fun h => by
      rcases h with h | h
      · obtain ⟨t, ht⟩ := c3Prose_head 119
        rw [ht] at h
        simp at h
      · rw [c3_strip 119] at h
        have := c3Prose_length 119
        omega)]
    rw [c3_sentTokenize, show (5 * 200 : Nat) = 1000 from rfl, hls]
  · exact hmap.1.1
  · exact hmap.2.1
  · exact hmap.1.2.1
  · exact hmap.2.2.1
  · rw [hmap.1.2.2]
    omega
  · rw [hmap.2.2.2]

/-- Witness for C10 at a concrete two-paragraph input. -/
theorem claim_c10_clean_content_kills_paragraph_splitting_witness :
    '\n' ∉ clean_content "First paragraph.\n\nSecond paragraph here.".toList
      ∧ (split_into_paragraphs (clean_content
          "First paragraph.\n\nSecond paragraph here.".toList)).length ≤ 1
      ∧ (split_into_micro_lessons []
          "First paragraph.\n\nSecond paragraph here.".toList 5).length ≤ 1 :=
  ⟨(claim_c10_clean_content_kills_paragraph_splitting
      "First paragraph.\n\nSecond paragraph here.".toList).1,
    (claim_c10_clean_content_kills_paragraph_splitting
      "First paragraph.\n\nSecond paragraph here.".toList).2.1,
    (claim_c10_clean_content_kills_paragraph_splitting
      "First paragraph.\n\nSecond paragraph here.".toList).2.2 [] 5⟩
